import Mathlib

/-!
A shallow embedding of the analysis and endpoint-extraction core of docswriter.

JavaScript strings are modelled as lists of characters (`Str`), plain objects as
association lists kept in insertion order (`Obj`), and code that can throw as
functions into `Except JsError`.

Source files embedded here:
* `src/generators/docGenerator.js`  (`splitDocumentationIntoSections`)
* `src/analyzers/projectAnalyzer.js` (`analyzeProject`)
* `src/generators/apiDocGenerator.js` (`extractApiInfo`, `extractCommentBlock`,
  `extractDescription`, `extractParameters`, `extractReturns`, `formatApiDocs`)
-/

namespace Docswriter

/-! ## JavaScript strings -/

/-- A JavaScript string, as the list of its characters. -/
abbrev Str := List Char

/-- The `WhiteSpace` and `LineTerminator` code points of ECMAScript: what
`String.prototype.trim` strips and what `\s` matches in a regular expression. -/
def isJsSpace (c : Char) : Bool :=
  let n := c.toNat
  n == 0x09 || n == 0x0A || n == 0x0B || n == 0x0C || n == 0x0D || n == 0x20 ||
  n == 0xA0 || n == 0x1680 || (0x2000 ≤ n && n ≤ 0x200A) || n == 0x2028 ||
  n == 0x2029 || n == 0x202F || n == 0x205F || n == 0x3000 || n == 0xFEFF

/-- `s.trimStart()`. -/
def trimStart (s : Str) : Str := s.dropWhile isJsSpace

/-- `s.trimEnd()`. -/
def trimEnd (s : Str) : Str := (s.reverse.dropWhile isJsSpace).reverse

/-- `s.trim()`. -/
def trim (s : Str) : Str := trimEnd (trimStart s)

/-- `s.startsWith(p)`. -/
def startsWith : Str → Str → Bool
  | _, [] => true
  | [], _ :: _ => false
  | c :: s, d :: p => c == d && startsWith s p

/-- `s.includes(p)`: `p` occurs in `s` as a contiguous substring. -/
def includes : Str → Str → Bool
  | [], p => p.isEmpty
  | c :: s, p => startsWith (c :: s) p || includes s p

/-- `s.split(sep)` for a separator given as a predicate on single characters
(`split('\n')`, `split('/')`, `split(/[/\\]/)`): always at least one piece. -/
def splitBy (isSep : Char → Bool) : Str → List Str
  | [] => [[]]
  | c :: s =>
    if isSep c then [] :: splitBy isSep s
    else
      match splitBy isSep s with
      | [] => [[c]]
      | piece :: pieces => (c :: piece) :: pieces

/-- `pieces.join(sep)`. -/
def join (sep : Str) : List Str → Str
  | [] => []
  | [piece] => piece
  | piece :: rest => piece ++ sep ++ join sep rest

/-! ## JavaScript plain objects -/

/-- The errors the embedded code can raise. -/
inductive JsError where
  | typeError
  deriving DecidableEq, Repr

/-- Own string-keyed properties of a plain object, in the order they were
created. Keys are pairwise distinct in every object built by the operations
below. -/
abbrev Obj (α : Type) := List (Str × α)

/-- The property names a plain object inherits from `Object.prototype`. Reading
one of them from an object that has no own property of that name yields a
function (or, for `__proto__`, the prototype object): a truthy value. -/
def objectPrototypeKeys : List Str :=
  ["constructor".toList, "__defineGetter__".toList, "__defineSetter__".toList,
   "hasOwnProperty".toList, "__lookupGetter__".toList, "__lookupSetter__".toList,
   "isPrototypeOf".toList, "propertyIsEnumerable".toList, "toString".toList,
   "valueOf".toList, "__proto__".toList, "toLocaleString".toList]

/-- The key `__proto__`, an accessor on `Object.prototype`: assigning a
primitive through it is ignored. -/
def protoKey : Str := "__proto__".toList

namespace Obj

/-- Own property lookup. -/
def get {α : Type} : Obj α → Str → Option α
  | [], _ => none
  | (k, v) :: o, key => if k = key then some v else get o key

/-- Creation or overwrite of an own data property (`CreateDataProperty`): an
existing key keeps its position, a new key goes last. -/
def define {α : Type} : Obj α → Str → α → Obj α
  | [], key, val => [(key, val)]
  | (k, v) :: o, key, val =>
    if k = key then (k, val) :: o else (k, v) :: define o key val

/-- The assignment `o[key] = val` of a primitive or freshly built value on a
plain object whose own properties are all writable data properties: ignored for
`__proto__` unless the object has an own property of that name, `define`
otherwise. -/
def assign {α : Type} (o : Obj α) (key : Str) (val : α) : Obj α :=
  if key = protoKey ∧ (get o key).isNone then o else define o key val

end Obj

/-- The numeric value of a decimal digit string read most significant first. -/
def digitsValue (s : Str) : Nat :=
  s.foldl (fun acc c => 10 * acc + (c.toNat - 48)) 0

/-- An array index in the sense of ECMAScript: the canonical decimal spelling of
an integer from `0` to `2^32 - 2`. Such keys are enumerated before all others,
in ascending numeric order. -/
def isArrayIndex (s : Str) : Bool :=
  !s.isEmpty && s.all Char.isDigit && (s.length == 1 || s.head? != some '0') &&
  s.length ≤ 10 && digitsValue s ≤ 4294967294

/-- Insertion of an entry into a list of entries sorted by array index. -/
def insertByIndex {α : Type} (e : Str × α) : List (Str × α) → List (Str × α)
  | [] => [e]
  | f :: rest =>
    if digitsValue e.1 ≤ digitsValue f.1 then e :: f :: rest
    else f :: insertByIndex e rest

/-- `Object.entries(o)` (also the order of `Object.keys`, `Object.values` and
`for ... in`): array-index keys in ascending numeric order, then the remaining
keys in creation order. -/
def Obj.entries {α : Type} (o : Obj α) : List (Str × α) :=
  (o.filter (fun e => isArrayIndex e.1)).foldr insertByIndex [] ++
    o.filter (fun e => !isArrayIndex e.1)

/-- `Object.keys(o)`. -/
def Obj.keys {α : Type} (o : Obj α) : List Str := (Obj.entries o).map Prod.fst

/-- `Object.values(o)`. -/
def Obj.values {α : Type} (o : Obj α) : List α := (Obj.entries o).map Prod.snd

/-! ## `splitDocumentationIntoSections` (docGenerator.js) -/

/-- The variables the `lines.forEach` callback of
`splitDocumentationIntoSections` updates. -/
structure SplitState where
  sections : Obj Str
  currentSection : Str
  currentContent : List Str
  deriving DecidableEq, Repr

/-- The marker `'# '` of a level-1 heading line. -/
def headingMarker : Str := "# ".toList

/-- The line separator `'\n'`. -/
def newline : Str := "\n".toList

/-- One call of the `lines.forEach` callback. -/
def splitStep (st : SplitState) (line : Str) : SplitState :=
  if startsWith line headingMarker then
    { sections :=
        if st.currentContent.length > 0 then
          st.sections.assign st.currentSection (join newline st.currentContent)
        else st.sections
      currentSection := trim (line.drop 2)
      currentContent := [line] }
  else
    { st with currentContent := st.currentContent ++ [line] }

/-- The function `splitDocumentationIntoSections(documentation)`. -/
def splitDocumentationIntoSections (documentation : Str) : Obj Str :=
  let lines := splitBy (· == '\n') documentation
  let st := lines.foldl splitStep
    { sections := [], currentSection := "README".toList, currentContent := [] }
  if st.currentContent.length > 0 then
    st.sections.assign st.currentSection (join newline st.currentContent)
  else st.sections

/-- Joining the values of the section map, in its iteration order, with
`'\n'`. -/
def joinSections (sections : Obj Str) : Str := join newline (Obj.values sections)

/-- Whether a line is a level-1 heading line: `line.startsWith('# ')`. -/
def isHeading (line : Str) : Bool := startsWith line headingMarker

/-- The section name a heading line starts: `line.substring(2).trim()`. -/
def headingTitle (line : Str) : Str := trim (line.drop 2)

/-- The section titles of a text in order of appearance: the default title
`README` when the text does not begin with a heading line, then the trimmed
title of every heading line. -/
def sectionTitles (documentation : Str) : List Str :=
  (if isHeading documentation then [] else ["README".toList]) ++
    ((splitBy (· == '\n') documentation).filter isHeading).map headingTitle

/-! ## `analyzeProject` (projectAnalyzer.js) -/

/-- A file record `{path, content, extension}` as `scanProject` produces it. -/
structure FileRecord where
  path : Str
  content : Str
  extension : Str
  deriving DecidableEq, Repr

/-- A value of `analysis.languages`: a number, possibly `NaN`. -/
inductive JsNum where
  | nan
  | fin (n : Nat)
  deriving DecidableEq, Repr

/-- The increment `x + 1` of `x++`. -/
def JsNum.succ : JsNum → JsNum
  | .nan => .nan
  | .fin n => .fin (n + 1)

/-- Truthiness of a number: `0` and `NaN` are falsy. -/
def JsNum.truthy : JsNum → Bool
  | .nan => false
  | .fin n => n != 0

/-- A node of `analysis.structure`: `{ type: "file", extension }` or
`{ type: "directory", children }`. -/
inductive Node where
  | file (extension : Str)
  | directory (children : List (Str × Node))

/-- Truthiness of `o[key]` for an object whose own values are all truthy: the
key is an own property or is inherited from `Object.prototype`. -/
def Obj.hasTruthy {α : Type} (o : Obj α) (key : Str) : Bool :=
  (Obj.get o key).isSome || objectPrototypeKeys.contains key

/-- The language count of one `files.forEach` callback:
`if (!languages[ext]) languages[ext] = 0; languages[ext]++`. An inherited
property is truthy and converts to `NaN`. -/
def countLanguage (languages : Obj JsNum) (ext : Str) : Obj JsNum :=
  let truthy : Bool :=
    match Obj.get languages ext with
    | some v => v.truthy
    | none => objectPrototypeKeys.contains ext
  let languages1 := if !truthy then Obj.assign languages ext (.fin 0) else languages
  let old : JsNum :=
    match Obj.get languages1 ext with
    | some v => v
    | none => .nan
  Obj.assign languages1 ext old.succ

/-- The `parts.forEach` loop of one file over the object `current` points to,
returning that object as the loop leaves it. For a part that is not the last,
`current = current[part].children` is a children object only when
`current[part]` is a directory node; for a file node or an inherited property it
is `undefined`, and the `current[part]` of the next part throws a TypeError. -/
def insertParts (ext : Str) : List Str → Obj Node → Except JsError (Obj Node)
  | [], current => .ok current
  | [part], current =>
    .ok (if Obj.hasTruthy current part then current
         else Obj.assign current part (.file ext))
  | part :: next :: rest, current =>
    let current1 :=
      if Obj.hasTruthy current part then current
      else Obj.assign current part (.directory [])
    match Obj.get current1 part with
    | some (.directory children) =>
      match insertParts ext (next :: rest) children with
      | .ok children1 => .ok (Obj.define current1 part (.directory children1))
      | .error e => .error e
    | some (.file _) => .error .typeError
    | none => .error .typeError

/-- The separator class `/[/\\]/` of `file.path.split`. -/
def isPathSep (c : Char) : Bool := c == '/' || c == '\\'

/-- A parsed manifest in the manifest format: an object whose optional fields
`dependencies` and `devDependencies` each map package names to version
strings. An absent field reads as `undefined`. -/
structure PackageInfo where
  dependencies : Option (Obj Str)
  devDependencies : Option (Obj Str)
  deriving DecidableEq, Repr

/-- The spread `{ ...target, ...source }` of one more source into an object
literal: own properties of the source are copied in enumeration order, and
`undefined` contributes nothing. -/
def spread {α : Type} (target : Obj α) (source : Option (Obj α)) : Obj α :=
  match source with
  | none => target
  | some src => (Obj.entries src).foldl (fun acc e => Obj.define acc e.1 e.2) target

/-- The object `analyzeProject` returns (without `projectName`, which is
`path.basename(projectPath)`). -/
structure Analysis where
  projectPath : Str
  files : Nat
  languages : Obj JsNum
  dependencies : Obj Str
  structure_ : Obj Node
  packageInfo : Option PackageInfo
  readme : Option Str

/-- The body of the `files.forEach` callback: language count, then tree
insertion. -/
def analyzeFile (acc : Obj JsNum × Obj Node) (file : FileRecord) :
    Except JsError (Obj JsNum × Obj Node) :=
  let languages := countLanguage acc.1 file.extension
  match insertParts file.extension (splitBy isPathSep file.path) acc.2 with
  | .ok tree => .ok (languages, tree)
  | .error e => .error e

/-- The loop `files.forEach(...)`: the first callback that throws ends it. -/
def analyzeFiles : List FileRecord → Obj JsNum × Obj Node →
    Except JsError (Obj JsNum × Obj Node)
  | [], acc => .ok acc
  | file :: files, acc =>
    match analyzeFile acc file with
    | .ok acc1 => analyzeFiles files acc1
    | .error e => .error e

/-- The function `analyzeProject(files, projectPath)`. The built-ins
`JSON.parse` (here returning `none` where the `try` block throws) and
`String.prototype.toLowerCase` are parameters. An error result is the rejection
of the returned promise. -/
def analyzeProject (jsonParse : Str → Option PackageInfo) (toLowerCase : Str → Str)
    (files : List FileRecord) (projectPath : Str) : Except JsError Analysis :=
  match analyzeFiles files ([], []) with
  | .error e => .error e
  | .ok (languages, tree) =>
    let packageFile := files.find? (fun file => toLowerCase file.path == "package.json".toList)
    let packageInfo : Option PackageInfo :=
      match packageFile with
      | some file => jsonParse file.content
      | none => none
    let dependencies : Obj Str :=
      match packageInfo with
      | some info => spread (spread [] info.dependencies) info.devDependencies
      | none => []
    let readmeFile := files.find? (fun file =>
      toLowerCase file.path == "readme.md".toList || toLowerCase file.path == "readme".toList)
    .ok { projectPath := projectPath
          files := files.length
          languages := languages
          dependencies := dependencies
          structure_ := tree
          packageInfo := packageInfo
          readme := readmeFile.map (·.content) }

/-! ## Regular expressions

The patterns of `apiDocGenerator.js` use literals, character classes, quantified
character classes (greedy and lazy), alternation, capture groups, a lookahead
and the end anchor. `Regex.run` is the backtracking matcher of ECMAScript in
continuation-passing style: alternatives are tried left to right, a greedy
quantifier tries the longest repetition first, a lazy one the shortest. -/

/-- The pattern syntax used by the source. -/
inductive Regex where
  /-- A run of literal characters. -/
  | lit (s : Str)
  /-- One character of a class: `[...]`, `\s`, or `.` under the `s` flag. -/
  | cls (p : Char → Bool)
  /-- The repetition `c*` (greedy) or `c*?` (lazy) of a character class. -/
  | star (greedy : Bool) (p : Char → Bool)
  /-- The repetition `c+` (greedy) or `c+?` (lazy) of a character class. -/
  | plus (greedy : Bool) (p : Char → Bool)
  /-- Concatenation. -/
  | seq (a b : Regex)
  /-- The alternation `a|b`. -/
  | alt (a b : Regex)
  /-- The capture group numbered `i`. -/
  | group (i : Nat) (a : Regex)
  /-- The lookahead `(?=a)`. -/
  | lookahead (a : Regex)
  /-- The anchor `$` without the `m` flag: end of input. -/
  | eoi

/-- Captured groups, most recent first. -/
abbrev Captures := List (Nat × Str)

/-- The text captured by group `i`. -/
def capture (caps : Captures) (i : Nat) : Str :=
  match caps.find? (fun c => c.1 == i) with
  | some c => c.2
  | none => []

/-- Greedy `c*` followed by the continuation `k`. -/
def starGreedy {R : Type} (p : Char → Bool) (k : Str → Option R) : Str → Option R
  | [] => k []
  | c :: s =>
    if p c then
      match starGreedy p k s with
      | some r => some r
      | none => k (c :: s)
    else k (c :: s)

/-- Lazy `c*?` followed by the continuation `k`. -/
def starLazy {R : Type} (p : Char → Bool) (k : Str → Option R) : Str → Option R
  | [] => k []
  | c :: s =>
    match k (c :: s) with
    | some r => some r
    | none => if p c then starLazy p k s else none

/-- The backtracking matcher: `re.run s caps k` matches `re` at the start of
`s` and passes what is left, with the captures, to `k`. -/
def Regex.run : Regex → {R : Type} → Str → Captures → (Str → Captures → Option R) → Option R
  | .lit l, _, s, caps, k => if startsWith s l then k (s.drop l.length) caps else none
  | .cls _, _, [], _, _ => none
  | .cls p, _, c :: s, caps, k => if p c then k s caps else none
  | .star true p, _, s, caps, k => starGreedy p (fun rest => k rest caps) s
  | .star false p, _, s, caps, k => starLazy p (fun rest => k rest caps) s
  | .plus _ _, _, [], _, _ => none
  | .plus true p, _, c :: s, caps, k =>
    if p c then starGreedy p (fun rest => k rest caps) s else none
  | .plus false p, _, c :: s, caps, k =>
    if p c then starLazy p (fun rest => k rest caps) s else none
  | .seq a b, _, s, caps, k => a.run s caps (fun rest caps1 => b.run rest caps1 k)
  | .alt a b, _, s, caps, k =>
    match a.run s caps k with
    | some r => some r
    | none => b.run s caps k
  | .group i a, _, s, caps, k =>
    a.run s caps (fun rest caps1 => k rest ((i, s.take (s.length - rest.length)) :: caps1))
  | .lookahead a, _, s, caps, k =>
    match a.run s caps (fun _ caps1 => some caps1) with
    | some caps1 => k s caps1
    | none => none
  | .eoi, _, s, caps, k => if s.isEmpty then k s caps else none

/-- A successful match: its start index, the matched text `m[0]`, the captures
and the input after the match. -/
structure Match where
  index : Nat
  whole : Str
  caps : Captures
  rest : Str
  deriving DecidableEq, Repr

/-- The first match at or after the start of `s`, which is at offset `index`
of the subject: what `s.match(re)` and `re.exec` find without the `g` flag. -/
def Regex.search (re : Regex) (index : Nat) : Str → Option Match
  | [] =>
    match re.run [] [] (fun rest caps => some (rest, caps)) with
    | some (rest, caps) => some { index := index, whole := [], caps := caps, rest := rest }
    | none => none
  | c :: s =>
    match re.run (c :: s) [] (fun rest caps => some (rest, caps)) with
    | some (rest, caps) =>
      some { index := index
             whole := (c :: s).take ((c :: s).length - rest.length)
             caps := caps, rest := rest }
    | none => re.search (index + 1) s

/-- All successive matches under the `g` flag, each search resuming where the
previous match ended (one character further after an empty match). The fuel
bounds the number of matches. -/
def Regex.searchAll (re : Regex) : Nat → Nat → Str → List Match
  | 0, _, _ => []
  | fuel + 1, index, s =>
    match re.search index s with
    | none => []
    | some m =>
      if m.whole.isEmpty then
        match m.rest with
        | [] => [m]
        | _ :: rest => m :: re.searchAll fuel (m.index + 1) rest
      else m :: re.searchAll fuel (m.index + m.whole.length) m.rest

/-- `s.matchAll(re)` and, through `Match.whole`, `s.match(re)` for a pattern
with the `g` flag. A subject of `n` characters has at most `n + 1` matches. -/
def Regex.matchAll (re : Regex) (s : Str) : List Match := re.searchAll (s.length + 1) 0 s

/-- `s.indexOf(t)`: the offset of the first occurrence of `t` in `s`. -/
def indexOf (t : Str) : Str → Option Nat
  | [] => if t.isEmpty then some 0 else none
  | c :: s =>
    if startsWith (c :: s) t then some 0
    else (indexOf t s).map (· + 1)

/-- Any character: `[\s\S]`, and `.` under the `s` flag. -/
def anyChar (_ : Char) : Bool := true

/-- The class `[^'"`]`. -/
def notQuote (c : Char) : Bool := !(c == '\'' || c == '"' || c == '`')

/-- The class `['"`]`. -/
def isQuote (c : Char) : Bool := c == '\'' || c == '"' || c == '`'

/-- Concatenation of a list of patterns. -/
def Regex.cat : List Regex → Regex
  | [] => .lit []
  | [a] => a
  | a :: rest => .seq a (Regex.cat rest)

/-! ## `apiDocGenerator.js` -/

/-- The alternation `get|post|put|delete|patch`. -/
def methodAlternatives : Regex :=
  .alt (.lit "get".toList) (.alt (.lit "post".toList) (.alt (.lit "put".toList)
    (.alt (.lit "delete".toList) (.lit "patch".toList))))

/-- The pattern `/router\.(get|post|put|delete|patch)\s*\(\s*['"`]([^'"`]+)['"`]/g`. -/
def routeRegex : Regex :=
  .cat [.lit "router.".toList, .group 1 methodAlternatives, .star true isJsSpace,
        .lit "(".toList, .star true isJsSpace, .cls isQuote,
        .group 2 (.plus true notQuote), .cls isQuote]

/-- The pattern `/router\.(get|post|put|delete|patch)/`. -/
def methodRegex : Regex := .cat [.lit "router.".toList, .group 1 methodAlternatives]

/-- The pattern `/['"`]([^'"`]+)['"`]/`. -/
def pathRegex : Regex := .cat [.cls isQuote, .group 1 (.plus true notQuote), .cls isQuote]

/-- The pattern `new RegExp(commentRegex.source + '\\s*$')`, that is
`/\/\*\*[\s\S]+?\*\/\s*$/`. -/
def commentRegex : Regex :=
  .cat [.lit "/**".toList, .plus false anyChar, .lit "*/".toList, .star true isJsSpace, .eoi]

/-- The lookahead `(?=\n\s*@|\n\s*\*\/|$)` that ends a tagged field. -/
def fieldEnd : Regex :=
  .lookahead
    (.alt (.cat [.lit "\n".toList, .star true isJsSpace, .lit "@".toList])
      (.alt (.cat [.lit "\n".toList, .star true isJsSpace, .lit "*/".toList]) .eoi))

/-- The pattern `/@description\s+(.+?)(?=\n\s*@|\n\s*\*\/|$)/s`. -/
def descriptionRegex : Regex :=
  .cat [.lit "@description".toList, .plus true isJsSpace, .group 1 (.plus false anyChar),
        fieldEnd]

/-- The pattern
`/@param\s+\{([^}]+)\}\s+([^\s]+)\s+-\s+(.+?)(?=\n\s*@|\n\s*\*\/|$)/sg`. -/
def paramRegex : Regex :=
  .cat [.lit "@param".toList, .plus true isJsSpace, .lit "\x7b".toList,
        .group 1 (.plus true (fun c => !(c == '\x7d'))), .lit "\x7d".toList,
        .plus true isJsSpace, .group 2 (.plus true (fun c => !isJsSpace c)),
        .plus true isJsSpace, .lit "-".toList, .plus true isJsSpace,
        .group 3 (.plus false anyChar), fieldEnd]

/-- The pattern `/@returns\s+\{([^}]+)\}\s+(.+?)(?=\n\s*@|\n\s*\*\/|$)/s`. -/
def returnsRegex : Regex :=
  .cat [.lit "@returns".toList, .plus true isJsSpace, .lit "\x7b".toList,
        .group 1 (.plus true (fun c => !(c == '\x7d'))), .lit "\x7d".toList,
        .plus true isJsSpace, .group 2 (.plus false anyChar), fieldEnd]

/-- The function `extractCommentBlock(content, routeIndex)`. -/
def extractCommentBlock (content : Str) (routeIndex : Nat) : Str :=
  let contentBeforeRoute := content.take routeIndex
  match commentRegex.search 0 contentBeforeRoute with
  | some commentMatch => commentMatch.whole
  | none => []

/-- The function `extractDescription(commentBlock)`. -/
def extractDescription (commentBlock : Str) : Str :=
  match descriptionRegex.search 0 commentBlock with
  | some descriptionMatch => trim (capture descriptionMatch.caps 1)
  | none => "No description available".toList

/-- An element of an endpoint's `parameters`. -/
structure Parameter where
  type : Str
  name : Str
  description : Str
  deriving DecidableEq, Repr

/-- The function `extractParameters(commentBlock)`. -/
def extractParameters (commentBlock : Str) : List Parameter :=
  (paramRegex.matchAll commentBlock).map fun m =>
    { type := trim (capture m.caps 1)
      name := trim (capture m.caps 2)
      description := trim (capture m.caps 3) }

/-- An endpoint's `returns`. -/
structure Returns where
  type : Str
  description : Str
  deriving DecidableEq, Repr

/-- The function `extractReturns(commentBlock)`. -/
def extractReturns (commentBlock : Str) : Returns :=
  match returnsRegex.search 0 commentBlock with
  | none => { type := "void".toList, description := "No return value".toList }
  | some returnsMatch =>
    { type := trim (capture returnsMatch.caps 1)
      description := trim (capture returnsMatch.caps 2) }

/-- A value of the endpoint map. -/
structure Endpoint where
  method : Str
  path : Str
  description : Str
  parameters : List Parameter
  returns : Returns
  deriving DecidableEq, Repr

/-- `s.toUpperCase()` on the method tokens, which are lower-case ASCII. -/
def toUpperCase (s : Str) : Str := s.map Char.toUpper

/-- The body of `for (const routeMatch of routeMatches)` in `extractApiInfo`,
for a `content` that is a string. -/
def recordRoute (content : Str) (apiDocs : Obj Endpoint) (routeMatch : Str) : Obj Endpoint :=
  match methodRegex.search 0 routeMatch, pathRegex.search 0 routeMatch with
  | some methodMatch, some pathMatch =>
    let method := toUpperCase (capture methodMatch.caps 1)
    let path := capture pathMatch.caps 1
    let routeIndex := (indexOf routeMatch content).getD 0
    let commentBlock := extractCommentBlock content routeIndex
    let endpoint := method ++ " ".toList ++ path
    Obj.assign apiDocs endpoint
      { method := method
        path := path
        description := extractDescription commentBlock
        parameters := extractParameters commentBlock
        returns := extractReturns commentBlock }
  | _, _ => apiDocs

/-- The scan of one file's `content`, a string, in `extractApiInfo`:
`content.match(/router.../g)` and the loop over its matches. -/
def scanContent (content : Str) (apiDocs : Obj Endpoint) : Obj Endpoint :=
  ((routeRegex.matchAll content).map (·.whole)).foldl (recordRoute content) apiDocs

/-- The value of `file.content` in `for (const file of routeFiles)`. The
elements of `routeFiles` are the keys pushed by
`for (const filePath in analysis.structure)`: string primitives, whose
properties are `length`, the character indices and the methods of
`String.prototype`. There is no property `content`, so the read yields
`undefined` (`none`) for every element. -/
def routeFileContent (_file : Str) : Option Str := none

/-- The test `filePath.includes('routes') || filePath.includes('controller') ||
filePath.includes('api')`. -/
def isRouteKey (filePath : Str) : Bool :=
  includes filePath "routes".toList || includes filePath "controller".toList ||
    includes filePath "api".toList

/-- The loop `for (const file of routeFiles)` of `extractApiInfo`:
`content.match` on an `undefined` content throws a TypeError. -/
def scanRouteFiles : List Str → Obj Endpoint → Except JsError (Obj Endpoint)
  | [], apiDocs => .ok apiDocs
  | file :: files, apiDocs =>
    match routeFileContent file with
    | none => .error .typeError
    | some content => scanRouteFiles files (scanContent content apiDocs)

/-- The function `extractApiInfo(analysis)`. -/
def extractApiInfo (analysis : Analysis) : Except JsError (Obj Endpoint) :=
  let routeFiles := (Obj.keys analysis.structure_).filter isRouteKey
  scanRouteFiles routeFiles []

/-- The group label of `formatApiDocs`: `info.path.split('/')[1] || 'root'`. -/
def basePathOf (path : Str) : Str :=
  match (splitBy (· == '/') path).get? 1 with
  | some segment => if segment.isEmpty then "root".toList else segment
  | none => "root".toList

/-- A value of `groups`: the array of `{ endpoint, info }` pushed under one
label. -/
abbrev Group := List (Str × Endpoint)

/-- The body of the grouping loop of `formatApiDocs` for one entry of
`Object.entries(apiDocs)`: `if (!groups[basePath]) groups[basePath] = []`, then
`groups[basePath].push({ endpoint, info })`. A label inherited from
`Object.prototype` is truthy and has no `push`: the call throws a TypeError. -/
def addToGroup (groups : Obj Group) (entry : Str × Endpoint) : Except JsError (Obj Group) :=
  let basePath := basePathOf entry.2.path
  let groups1 :=
    if Obj.hasTruthy groups basePath then groups else Obj.assign groups basePath []
  match Obj.get groups1 basePath with
  | some endpoints => .ok (Obj.define groups1 basePath (endpoints ++ [entry]))
  | none => .error .typeError

/-- The grouping loop of `formatApiDocs` over the entries of `apiDocs`. -/
def groupEndpoints : List (Str × Endpoint) → Obj Group → Except JsError (Obj Group)
  | [], groups => .ok groups
  | entry :: entries, groups =>
    match addToGroup groups entry with
    | .ok groups1 => groupEndpoints entries groups1
    | .error e => .error e

/-- The table rows of an endpoint's parameters. -/
def renderParameterRows (parameters : List Parameter) : Str :=
  (parameters.map fun param =>
    "| ".toList ++ param.name ++ " | ".toList ++ param.type ++ " | ".toList ++
      param.description ++ " |\n".toList).flatten

/-- The markdown `formatApiDocs` appends for one endpoint of a group. -/
def renderEndpoint (endpoint : Str) (info : Endpoint) : Str :=
  "### ".toList ++ endpoint ++ "\n\n".toList ++
  "**Description:** ".toList ++ info.description ++ "\n\n".toList ++
  (if info.parameters.length > 0 then
    "**Parameters:**\n\n".toList ++ "| Name | Type | Description |\n".toList ++
    "| ---- | ---- | ----------- |\n".toList ++ renderParameterRows info.parameters ++
    "\n".toList
   else []) ++
  "**Returns:** ".toList ++ info.returns.type ++ " - ".toList ++ info.returns.description ++
    "\n\n".toList ++
  "**Example Request:**\n\n".toList ++ "```javascript\n".toList ++
  "// Example ".toList ++ info.method ++ " request to ".toList ++ info.path ++ "\n".toList ++
  "```\n\n".toList ++
  "**Example Response:**\n\n".toList ++ "```json\n".toList ++
  "// Example response\n".toList ++ "```\n\n".toList ++
  "---\n\n".toList

/-- The markdown `formatApiDocs` appends for one group. The built-in
`String.prototype.toUpperCase` is a parameter. -/
def renderGroup (upper : Str → Str) (basePath : Str) (endpoints : Group) : Str :=
  "## ".toList ++ upper basePath ++ " Endpoints\n\n".toList ++
    (endpoints.map fun e => renderEndpoint e.1 e.2).flatten

/-- The function `formatApiDocs(apiDocs)`. -/
def formatApiDocs (upper : Str → Str) (apiDocs : Obj Endpoint) : Except JsError Str :=
  match groupEndpoints (Obj.entries apiDocs) [] with
  | .error e => .error e
  | .ok groups =>
    .ok ("# API Documentation\n\n".toList ++
      ((Obj.entries groups).map fun g => renderGroup upper g.1 g.2).flatten)

/-- The group label in the words of the specification: the first non-empty
segment of the path after its leading separator, `root` when there is none. -/
def specGroupLabel (path : Str) : Str :=
  match ((splitBy (· == '/') path).drop 1).find? (fun segment => !segment.isEmpty) with
  | some segment => segment
  | none => "root".toList

/-- An endpoint with the default fields of an undocumented declaration. -/
def plainEndpoint (method path : Str) : Endpoint :=
  { method := method, path := path
    description := "No description available".toList
    parameters := []
    returns := { type := "void".toList, description := "No return value".toList } }

/-- An endpoint map with the paths `/auth/login`, `/` and `/auth/logout`. -/
def exampleApiDocs : Obj Endpoint :=
  [("POST /auth/login".toList, plainEndpoint "POST".toList "/auth/login".toList),
   ("GET /".toList, plainEndpoint "GET".toList "/".toList),
   ("POST /auth/logout".toList, plainEndpoint "POST".toList "/auth/logout".toList)]

/-- The example of the specification: a documented declaration of `/users`. -/
def specExample : Str :=
  ("/** @description Get all users\n * @param {number} limit - max results\n" ++
   " * @returns {Array} list of users\n */\nrouter.get('/users', handler)").toList

/-- A route file with two documented declarations. -/
def twoDocumentedRoutes : Str :=
  ("/** @description List users */\nrouter.get('/users', listUsers);\n" ++
   "/** @description List items */\nrouter.get('/items', listItems);\n").toList

/-- A route file whose second declaration follows a plain block comment, not a
documentation comment. -/
def plainCommentRoute : Str :=
  ("/** @description List users */\nrouter.get('/users', listUsers);\n" ++
   "/* TODO: pagination */\nrouter.get('/items', listItems);\n").toList

/-- The path from file records to the endpoint map in `main` (index.js):
`analyzeProject`, then `extractApiInfo` on its analysis. -/
def extractApiInfoOfFiles (jsonParse : Str → Option PackageInfo) (toLowerCase : Str → Str)
    (files : List FileRecord) : Except JsError (Obj Endpoint) :=
  match analyzeProject jsonParse toLowerCase files [] with
  | .ok analysis => extractApiInfo analysis
  | .error e => .error e

/-- The manifest of the dependency-merge example: `dependencies = {a: '1.0'}`,
`devDependencies = {a: '2.0', b: '1.0'}`. -/
def exampleManifest : PackageInfo :=
  { dependencies := some [("a".toList, "1.0".toList)]
    devDependencies := some [("a".toList, "2.0".toList), ("b".toList, "1.0".toList)] }

/-- A project of two files, one of them the manifest. -/
def exampleManifestFiles : List FileRecord :=
  [{ path := "index.js".toList, content := [], extension := "js".toList },
   { path := "package.json".toList, content := [], extension := "json".toList }]

/-- A route file that declares `router.get('/a'` twice, each declaration
preceded by its own documentation comment. -/
def repeatedRoute : Str :=
  ("/**\n * @description First\n */\nrouter.get('/a', first);\n" ++
   "/**\n * @description Second\n */\nrouter.get('/a', second);\n").toList

/-- A route file that declares `router.get('/a'` twice, only the second
declaration preceded by a documentation comment. -/
def repeatedRouteSecondDocumented : Str :=
  ("router.get('/a', first);\n" ++
   "/**\n * @description Second\n */\nrouter.get('/a', second);\n").toList

/-- One row of the parameter table: `| name | type | description |`. -/
def parameterRow (param : Parameter) : Str :=
  "| ".toList ++ param.name ++ " | ".toList ++ param.type ++ " | ".toList ++
    param.description ++ " |".toList

/-- The lines that open a parameter table, the header
`| Name | Type | Description |` among them. -/
def parameterTableHeader : Str :=
  "**Parameters:**\n\n".toList ++ "| Name | Type | Description |\n".toList ++
    "| ---- | ---- | ----------- |\n".toList

/-- The parameter table in the words of the specification: nothing for an empty
parameter list; otherwise the header, one row per parameter in list order, each
on a line of its own, and an empty line. -/
def parameterTable : List Parameter → Str
  | [] => []
  | param :: params =>
    parameterTableHeader ++
      ((param :: params).map fun q => parameterRow q ++ "\n".toList).flatten ++ "\n".toList

/-- The returns line `**Returns:** type - description`. -/
def returnsLine (info : Endpoint) : Str :=
  "**Returns:** ".toList ++ info.returns.type ++ " - ".toList ++ info.returns.description

/-- The heading and description line that open the markdown of an endpoint. -/
def endpointHead (endpoint : Str) (info : Endpoint) : Str :=
  "### ".toList ++ endpoint ++ "\n\n".toList ++
    "**Description:** ".toList ++ info.description ++ "\n\n".toList

/-- An endpoint map with a documented endpoint of two parameters and an
undocumented one. -/
def exampleDocumentedApiDocs : Obj Endpoint :=
  [("GET /users".toList,
    { method := "GET".toList, path := "/users".toList
      description := "Get all users".toList
      parameters :=
        [{ type := "number".toList, name := "limit".toList
           description := "max results".toList },
         { type := "string".toList, name := "sort".toList
           description := "sort key".toList }]
      returns := { type := "Array".toList, description := "list of users".toList } }),
   ("GET /".toList, plainEndpoint "GET".toList "/".toList)]

/-- Every group holds only entries whose label it is. -/
def GroupsSound (groups : Obj Group) : Prop :=
  ∀ label endpoints, Obj.get groups label = some endpoints →
    ∀ e ∈ endpoints, basePathOf e.2.path = label

/-- The sections the loop of `splitDocumentationIntoSections` writes, in order:
the pending section `(title, content)` followed over the remaining lines. -/
def chunksFrom (title : Str) (content : List Str) : List Str → List (Str × List Str)
  | [] => if content.length > 0 then [(title, content)] else []
  | l :: ls =>
    if startsWith l headingMarker then
      (if content.length > 0 then [(title, content)] else []) ++
        chunksFrom (trim (l.drop 2)) [l] ls
    else chunksFrom title (content ++ [l]) ls

/-- Writing a list of sections into a section map by assignment. -/
def assignAll (o : Obj Str) (cs : List (Str × List Str)) : Obj Str :=
  cs.foldl (fun acc c => acc.assign c.1 (join newline c.2)) o

/-! # Theorems -/

/-! ## Strings and objects -/

theorem splitBy_ne_nil (p : Char → Bool) (s : Str) : splitBy p s ≠ [] := by
  cases s with
  | nil => simp [splitBy]
  | cons c s =>
    simp only [splitBy]
    split
    · simp
    · split <;> simp

theorem join_cons_cons (sep a b : Str) (rest : List Str) :
    join sep (a :: b :: rest) = a ++ sep ++ join sep (b :: rest) := rfl

theorem join_splitBy_newline (s : Str) :
    join newline (splitBy (· == '\n') s) = s := by
  induction s with
  | nil => rfl
  | cons c s ih =>
    simp only [splitBy]
    by_cases h : (c == '\n') = true
    · simp only [h, if_true]
      have hc : c = '\n' := by simpa using h
      obtain ⟨x, xs, hx⟩ := List.exists_cons_of_ne_nil (splitBy_ne_nil (· == '\n') s)
      rw [hx] at ih ⊢
      rw [join_cons_cons, ih, hc]
      rfl
    · simp only [h]
      obtain ⟨x, xs, hx⟩ := List.exists_cons_of_ne_nil (splitBy_ne_nil (· == '\n') s)
      rw [hx] at ih ⊢
      simp only [Bool.false_eq_true, if_false]
      cases xs with
      | nil => simp only [join] at ih ⊢; rw [ih]
      | cons y ys =>
        rw [join_cons_cons] at ih ⊢
        rw [← ih]; simp

/-- Joining joined groups is joining the concatenation, when no group is empty. -/
theorem join_map_join (sep : Str) (groups : List (List Str))
    (h : ∀ g ∈ groups, g ≠ []) :
    join sep (groups.map (join sep)) = join sep groups.flatten := by
  induction groups with
  | nil => rfl
  | cons g gs ih =>
    have ihh := ih (fun g hg => h g (List.mem_cons_of_mem _ hg))
    have hg : g ≠ [] := h g (List.mem_cons_self _ _)
    simp only [List.map_cons, List.flatten_cons]
    cases gs with
    | nil => simp [join]
    | cons g2 gs2 =>
      have hg2 : g2 ≠ [] := h g2 (by simp)
      simp only [List.map_cons] at ihh ⊢
      rw [join_cons_cons, ihh]
      obtain ⟨a, as, rfl⟩ := List.exists_cons_of_ne_nil hg2
      simp only [List.flatten_cons, List.cons_append]
      clear ihh ih h hg2
      induction g with
      | nil => exact absurd rfl hg
      | cons x xs ihx =>
        cases xs with
        | nil => rfl
        | cons x2 xs2 =>
          simp only [List.cons_append] at ihx ⊢
          rw [join_cons_cons, join_cons_cons, ← ihx (by simp)]
          simp

theorem Obj.get_define {α : Type} (o : Obj α) (k : Str) (v : α) (key : Str) :
    Obj.get (Obj.define o k v) key = if k = key then some v else Obj.get o key := by
  induction o with
  | nil => simp [Obj.define, Obj.get]
  | cons e o ih =>
    obtain ⟨k2, v2⟩ := e
    simp only [Obj.define]
    by_cases h : k2 = k
    · subst h
      simp only [if_true, Obj.get]
      split <;> rfl
    · simp only [h, if_false, Obj.get, ih]
      by_cases h2 : k2 = key
      · have : k ≠ key := fun hk => h (h2.trans hk.symm)
        simp [h2, this]
      · simp [h2]

theorem Obj.get_eq_some_iff {α : Type} (o : Obj α) (hnd : (o.map Prod.fst).Nodup)
    (key : Str) (v : α) : Obj.get o key = some v ↔ (key, v) ∈ o := by
  induction o with
  | nil => simp [Obj.get]
  | cons e o ih =>
    obtain ⟨k2, v2⟩ := e
    simp only [List.map_cons, List.nodup_cons] at hnd
    simp only [Obj.get, List.mem_cons, Prod.mk.injEq]
    by_cases h : k2 = key
    · subst h
      simp only [if_true, Option.some.injEq, true_and]
      constructor
      · intro hv; exact Or.inl hv.symm
      · rintro (hv | hmem)
        · exact hv.symm
        · exact absurd (List.mem_map_of_mem Prod.fst hmem) hnd.1
    · simp only [h, if_false, ih hnd.2]
      constructor
      · intro hm; exact Or.inr hm
      · rintro (⟨hk, _⟩ | hm)
        · exact absurd hk.symm h
        · exact hm

theorem Obj.get_eq_of_perm {α : Type} (o1 o2 : Obj α) (hp : List.Perm o1 o2)
    (hnd : (o1.map Prod.fst).Nodup) (key : Str) : Obj.get o1 key = Obj.get o2 key := by
  have hnd2 : (o2.map Prod.fst).Nodup := (hp.map Prod.fst).nodup_iff.mp hnd
  apply Option.ext
  intro v
  simp only [Option.mem_def]
  rw [Obj.get_eq_some_iff o1 hnd, Obj.get_eq_some_iff o2 hnd2]
  exact hp.mem_iff

theorem insertByIndex_perm {α : Type} (e : Str × α) (l : List (Str × α)) :
    List.Perm (insertByIndex e l) (e :: l) := by
  induction l with
  | nil => exact List.Perm.refl _
  | cons f rest ih =>
    simp only [insertByIndex]
    split
    · exact List.Perm.refl _
    · exact (List.Perm.cons f ih).trans (List.Perm.swap e f rest)

theorem Obj.entries_perm {α : Type} (o : Obj α) : List.Perm (Obj.entries o) o := by
  have h1 : ∀ l : List (Str × α), List.Perm (l.foldr insertByIndex []) l := by
    intro l
    induction l with
    | nil => exact List.Perm.refl _
    | cons e l ih =>
      simp only [List.foldr_cons]
      exact (insertByIndex_perm e _).trans (List.Perm.cons e ih)
  unfold Obj.entries
  exact (List.Perm.append_right _ (h1 _)).trans (List.filter_append_perm _ o)

theorem Obj.get_foldl_define {α : Type} (es : List (Str × α))
    (hnd : (es.map Prod.fst).Nodup) (target : Obj α) (key : Str) :
    Obj.get (es.foldl (fun acc e => Obj.define acc e.1 e.2) target) key =
      match Obj.get es key with
      | some v => some v
      | none => Obj.get target key := by
  induction es generalizing target with
  | nil => simp [Obj.get]
  | cons e es ih =>
    obtain ⟨k, v⟩ := e
    simp only [List.map_cons, List.nodup_cons] at hnd
    simp only [List.foldl_cons, ih hnd.2, Obj.get, Obj.get_define]
    by_cases h : k = key
    · subst h
      have hnone : Obj.get es k = none := by
        cases hg : Obj.get es k with
        | none => rfl
        | some w =>
          exact absurd (List.mem_map_of_mem Prod.fst
            ((Obj.get_eq_some_iff es hnd.2 k w).mp hg)) hnd.1
      simp [hnone]
    · simp [h]

/-- Reading a key from `{ ...target, ...source }`: the source's value when the
source has the key, the target's otherwise. -/
theorem get_spread {α : Type} (target : Obj α) (source : Option (Obj α))
    (hnd : ∀ o, source = some o → (o.map Prod.fst).Nodup) (key : Str) :
    Obj.get (spread target source) key =
      match Obj.get (source.getD []) key with
      | some v => some v
      | none => Obj.get target key := by
  cases source with
  | none => simp [spread, Obj.get]
  | some src =>
    have hsrc := hnd src rfl
    have hperm := Obj.entries_perm src
    have hnd2 : ((Obj.entries src).map Prod.fst).Nodup :=
      (hperm.map Prod.fst).nodup_iff.mpr hsrc
    simp only [spread, Option.getD_some]
    rw [Obj.get_foldl_define _ hnd2, Obj.get_eq_of_perm _ _ hperm hnd2]

theorem Obj.define_of_not_mem {α : Type} (o : Obj α) (k : Str) (v : α)
    (h : k ∉ o.map Prod.fst) : Obj.define o k v = o ++ [(k, v)] := by
  induction o with
  | nil => rfl
  | cons e o ih =>
    obtain ⟨k2, v2⟩ := e
    simp only [List.map_cons, List.mem_cons, not_or] at h
    simp only [Obj.define, List.cons_append]
    rw [if_neg (fun hk => h.1 hk.symm), ih h.2]

theorem Obj.entries_of_no_index {α : Type} (o : Obj α)
    (h : ∀ k ∈ o.map Prod.fst, isArrayIndex k = false) : Obj.entries o = o := by
  have h1 : o.filter (fun e => isArrayIndex e.1) = [] := by
    rw [List.filter_eq_nil_iff]
    intro e he
    simp [h e.1 (List.mem_map_of_mem _ he)]
  have h2 : o.filter (fun e => !isArrayIndex e.1) = o := by
    rw [List.filter_eq_self]
    intro e he
    simp [h e.1 (List.mem_map_of_mem _ he)]
  simp [Obj.entries, h1, h2]

/-! ## C1: section splitting -/

theorem split_eq_assignAll (ls : List Str) (st : SplitState) :
    (let fin := ls.foldl splitStep st
     if fin.currentContent.length > 0 then
       fin.sections.assign fin.currentSection (join newline fin.currentContent)
     else fin.sections) =
    assignAll st.sections (chunksFrom st.currentSection st.currentContent ls) := by
  induction ls generalizing st with
  | nil =>
    simp only [List.foldl_nil, chunksFrom]
    split <;> simp [assignAll]
  | cons l ls ih =>
    simp only [List.foldl_cons, chunksFrom]
    rw [ih]
    unfold splitStep
    by_cases h : startsWith l headingMarker = true
    · simp only [h, if_true]
      by_cases hc : st.currentContent.length > 0
      · simp [hc, assignAll]
      · simp [hc, assignAll]
    · simp [h]

theorem assignAll_of_nodup (cs : List (Str × List Str)) (o : Obj Str)
    (hnd : (o.map Prod.fst ++ cs.map Prod.fst).Nodup)
    (hp : ∀ k ∈ cs.map Prod.fst, k ≠ protoKey) :
    assignAll o cs = o ++ cs.map (fun c => (c.1, join newline c.2)) := by
  induction cs generalizing o with
  | nil => simp [assignAll]
  | cons c cs ih =>
    have hk : c.1 ∉ o.map Prod.fst := by
      intro hmem
      rw [List.nodup_append] at hnd
      exact hnd.2.2 hmem (by simp)
    have hcp : c.1 ≠ protoKey := hp c.1 (by simp)
    have step : Obj.assign o c.1 (join newline c.2) = o ++ [(c.1, join newline c.2)] := by
      unfold Obj.assign
      rw [if_neg (fun hh => hcp hh.1)]
      exact Obj.define_of_not_mem o c.1 _ hk
    have := ih (o ++ [(c.1, join newline c.2)])
      (by simpa [List.map_append, List.append_assoc] using hnd)
      (fun k hk2 => hp k (by simp only [List.map_cons, List.mem_cons]; exact Or.inr hk2))
    simp only [assignAll, List.foldl_cons] at this ⊢
    rw [step, this]
    simp

theorem chunksFrom_keys (ls : List Str) (t : Str) (cc : List Str) (h : cc ≠ []) :
    (chunksFrom t cc ls).map Prod.fst = t :: (ls.filter isHeading).map headingTitle := by
  have hlen : ∀ c : List Str, c ≠ [] → c.length > 0 := fun c hc =>
    List.length_pos.mpr hc
  induction ls generalizing t cc with
  | nil => simp [chunksFrom, hlen cc h]
  | cons l ls ih =>
    simp only [chunksFrom]
    by_cases hl : startsWith l headingMarker = true
    · have hl2 : isHeading l = true := hl
      simp [hl, hl2, hlen cc h, ih (trim (l.drop 2)) [l] (by simp), headingTitle]
    · have hl2 : isHeading l = false := by simpa [isHeading] using hl
      simp [hl, hl2, ih t (cc ++ [l]) (by simp)]

theorem chunksFrom_contents (ls : List Str) (t : Str) (cc : List Str) :
    ((chunksFrom t cc ls).map Prod.snd).flatten = cc ++ ls ∧
      ∀ g ∈ (chunksFrom t cc ls).map Prod.snd, g ≠ [] := by
  induction ls generalizing t cc with
  | nil =>
    cases cc with
    | nil => simp [chunksFrom]
    | cons c cc => simp [chunksFrom]
  | cons l ls ih =>
    simp only [chunksFrom]
    by_cases hl : startsWith l headingMarker = true
    · obtain ⟨h1, h2⟩ := ih (trim (l.drop 2)) [l]
      cases cc with
      | nil =>
        simp only [hl, if_true, List.length_nil, gt_iff_lt, lt_self_iff_false, if_false,
          List.nil_append]
        exact ⟨h1, h2⟩
      | cons c cc =>
        simp only [hl, if_true, List.length_cons, gt_iff_lt, Nat.zero_lt_succ,
          List.map_append, List.map_cons, List.map_nil, List.flatten_append]
        refine ⟨by simp [h1], ?_⟩
        intro g hg
        simp only [List.mem_append, List.mem_singleton] at hg
        rcases hg with hg | hg
        · subst hg; simp
        · exact h2 g hg
    · obtain ⟨h1, h2⟩ := ih t (cc ++ [l])
      simp only [hl]
      exact ⟨by simpa using h1, h2⟩

theorem splitDocumentationIntoSections_eq (doc : Str) :
    splitDocumentationIntoSections doc =
      assignAll [] (chunksFrom "README".toList [] (splitBy (· == '\n') doc)) := by
  unfold splitDocumentationIntoSections
  exact split_eq_assignAll _ _

theorem startsWith_head_splitBy (p : Str) (hp : ∀ c ∈ p, c ≠ '\n') (s l : Str)
    (ls : List Str) (h : splitBy (· == '\n') s = l :: ls) :
    startsWith s p = startsWith l p := by
  induction p generalizing s l ls with
  | nil => simp [startsWith]
  | cons d p ih =>
    have hd : d ≠ '\n' := hp d (by simp)
    cases s with
    | nil =>
      simp only [splitBy, List.cons.injEq] at h
      rw [← h.1]
    | cons c s =>
      simp only [splitBy] at h
      by_cases hc : (c == '\n') = true
      · simp only [hc, if_true, List.cons.injEq] at h
        have hc2 : c = '\n' := by simpa using hc
        rw [← h.1]
        simp only [startsWith, Bool.and_eq_false_imp, beq_iff_eq]
        intro hcd
        exact absurd (hcd ▸ hc2) hd
      · obtain ⟨x, xs, hx⟩ := List.exists_cons_of_ne_nil (splitBy_ne_nil (· == '\n') s)
        simp only [hc, Bool.false_eq_true, if_false, hx, List.cons.injEq] at h
        rw [← h.1]
        simp only [startsWith]
        rw [ih (fun c hc => hp c (List.mem_cons_of_mem _ hc)) s x xs hx]

theorem chunksFrom_keys_start (doc : Str) :
    (chunksFrom "README".toList [] (splitBy (· == '\n') doc)).map Prod.fst =
      sectionTitles doc := by
  obtain ⟨l, ls, hl⟩ := List.exists_cons_of_ne_nil (splitBy_ne_nil (· == '\n') doc)
  have hhead : isHeading doc = isHeading l :=
    startsWith_head_splitBy headingMarker (by decide) doc l ls hl
  unfold sectionTitles
  rw [hl, hhead]
  simp only [chunksFrom]
  by_cases h : startsWith l headingMarker = true
  · have h2 : isHeading l = true := h
    simp [h, h2, chunksFrom_keys ls _ [l] (by simp), headingTitle]
  · have h2 : isHeading l = false := by simpa [isHeading] using h
    simp [h, h2, chunksFrom_keys ls _ [l] (by simp)]

/-- C1, as amended: when the section titles of a text (the default `README` for
text before the first heading, then each heading's trimmed title) are pairwise
distinct and none of them is an array index or `__proto__`, joining the values
of `splitDocumentationIntoSections(text)` in iteration order with `'\n'` yields
exactly the text. -/
theorem splitDocumentationIntoSections_roundtrip (doc : Str)
    (hnd : (sectionTitles doc).Nodup)
    (hidx : ∀ t ∈ sectionTitles doc, isArrayIndex t = false)
    (hproto : ∀ t ∈ sectionTitles doc, t ≠ protoKey) :
    joinSections (splitDocumentationIntoSections doc) = doc := by
  have hkeys := chunksFrom_keys_start doc
  obtain ⟨hflat, hne⟩ := chunksFrom_contents (splitBy (· == '\n') doc) "README".toList []
  have hsplit : splitDocumentationIntoSections doc =
      (chunksFrom "README".toList [] (splitBy (· == '\n') doc)).map
        (fun c => (c.1, join newline c.2)) := by
    rw [splitDocumentationIntoSections_eq, assignAll_of_nodup]
    · simp
    · rw [List.map_nil, List.nil_append, hkeys]; exact hnd
    · rw [hkeys]; exact hproto
  have hk2 : (splitDocumentationIntoSections doc).map Prod.fst = sectionTitles doc := by
    rw [hsplit, ← hkeys, List.map_map]; rfl
  unfold joinSections Obj.values
  rw [Obj.entries_of_no_index _ (by rw [hk2]; exact hidx), hsplit, List.map_map]
  have : (Prod.snd ∘ fun c : Str × List Str => (c.1, join newline c.2)) =
      (join newline) ∘ Prod.snd := rfl
  rw [this, ← List.map_map, join_map_join _ _ hne, hflat]
  simpa using join_splitBy_newline doc

theorem splitDocumentationIntoSections_roundtrip_witness :
    (sectionTitles "intro\n# Setup\nrun it\n# Usage \n".toList).Nodup ∧
    joinSections (splitDocumentationIntoSections "intro\n# Setup\nrun it\n# Usage \n".toList) =
      "intro\n# Setup\nrun it\n# Usage \n".toList :=
  ⟨by decide,
   splitDocumentationIntoSections_roundtrip _ (by decide) (by decide) (by decide)⟩

/-- C1 fails as stated: a text with a repeated heading title is not reproduced,
the second section overwrites the first under the shared key. -/
theorem splitDocumentationIntoSections_repeated_title :
    joinSections (splitDocumentationIntoSections "# A\nx\n# A\ny".toList) =
        "# A\ny".toList ∧
      joinSections (splitDocumentationIntoSections "# A\nx\n# A\ny".toList) ≠
        "# A\nx\n# A\ny".toList := by
  decide


/-! ## C4, C5: language count and tree insertion -/

/-- C4 fails on the code: for the two file records `lib` and `lib/util.js`, one
path a proper prefix of the other, `analyzeProject` throws a TypeError in the
tree insertion of the second record and produces no analysis, whatever the
manifest parser and case mapping are; so it does for the single record
`constructor/index.js`, whose directory name is inherited from
`Object.prototype`. -/
theorem analyzeProject_prefix_paths_throw (jsonParse : Str → Option PackageInfo)
    (toLowerCase : Str → Str) (projectPath : Str) :
    analyzeProject jsonParse toLowerCase
      [{ path := "lib".toList, content := [], extension := [] },
       { path := "lib/util.js".toList, content := [], extension := "js".toList }]
      projectPath = .error .typeError ∧
    analyzeProject jsonParse toLowerCase
      [{ path := "constructor/index.js".toList, content := [], extension := "js".toList }]
      projectPath = .error .typeError :=
  ⟨rfl, rfl⟩

/-- C5 fails on the code: after the path `a` is inserted as a file, inserting
`a/b.js` descends into the file node, whose `children` is `undefined`, and
throws a TypeError. -/
theorem insertParts_file_as_ancestor_throws :
    insertParts [] (splitBy isPathSep "a".toList) [] =
        .ok [("a".toList, Node.file [])] ∧
      insertParts "js".toList (splitBy isPathSep "a/b.js".toList)
        [("a".toList, Node.file [])] = .error .typeError :=
  ⟨rfl, rfl⟩

/-! ## C6: dependency merge -/

/-- C6: when the `files.forEach` loop of `analyzeProject` completes and the
manifest record is parsed, `analyzeProject` returns an analysis, and its
`dependencies` maps every name to its `devDependencies` version when
`devDependencies` has the name, to its `dependencies` version otherwise, and has
no other names; for `dependencies = {a: '1.0'}` and
`devDependencies = {a: '2.0', b: '1.0'}` it is `{a: '2.0', b: '1.0'}`. -/
theorem analyzeProject_dependencies (jsonParse : Str → Option PackageInfo)
    (toLowerCase : Str → Str) (files : List FileRecord) (projectPath : Str)
    (acc : Obj JsNum × Obj Node) (file : FileRecord) (info : PackageInfo)
    (hfiles : analyzeFiles files ([], []) = .ok acc)
    (hfile : files.find? (fun f => toLowerCase f.path == "package.json".toList) = some file)
    (hparse : jsonParse file.content = some info)
    (hdeps : ∀ o, info.dependencies = some o → (o.map Prod.fst).Nodup)
    (hdev : ∀ o, info.devDependencies = some o → (o.map Prod.fst).Nodup) :
    ∃ analysis, analyzeProject jsonParse toLowerCase files projectPath = .ok analysis ∧
      (∀ name, Obj.get analysis.dependencies name =
        match Obj.get (info.devDependencies.getD []) name with
        | some version => some version
        | none => Obj.get (info.dependencies.getD []) name) ∧
      (info.dependencies = some [("a".toList, "1.0".toList)] →
        info.devDependencies =
          some [("a".toList, "2.0".toList), ("b".toList, "1.0".toList)] →
        analysis.dependencies = [("a".toList, "2.0".toList), ("b".toList, "1.0".toList)]) := by
  obtain ⟨languages, tree⟩ := acc
  have hrun : analyzeProject jsonParse toLowerCase files projectPath =
      .ok { projectPath := projectPath
            files := files.length
            languages := languages
            dependencies := spread (spread [] info.dependencies) info.devDependencies
            structure_ := tree
            packageInfo := some info
            readme := (files.find? (fun f =>
              toLowerCase f.path == "readme.md".toList ||
                toLowerCase f.path == "readme".toList)).map (·.content) } := by
    unfold analyzeProject
    rw [hfiles]
    simp only [hfile, hparse]
  refine ⟨_, hrun, ?_, ?_⟩
  · intro name
    show Obj.get (spread (spread [] info.dependencies) info.devDependencies) name = _
    rw [get_spread _ _ hdev, get_spread _ _ hdeps]
    cases Obj.get (info.devDependencies.getD []) name with
    | some v => rfl
    | none =>
      simp only
      cases Obj.get (info.dependencies.getD []) name <;> rfl
  · intro h1 h2
    show spread (spread [] info.dependencies) info.devDependencies = _
    rw [h1, h2]
    decide

theorem analyzeProject_dependencies_witness :
    (∃ acc, analyzeFiles exampleManifestFiles ([], []) = .ok acc) ∧
    ∃ analysis, analyzeProject (fun _ => some exampleManifest) id exampleManifestFiles [] =
        .ok analysis ∧
      (∀ name, Obj.get analysis.dependencies name =
        match Obj.get (exampleManifest.devDependencies.getD []) name with
        | some version => some version
        | none => Obj.get (exampleManifest.dependencies.getD []) name) ∧
      (exampleManifest.dependencies = some [("a".toList, "1.0".toList)] →
        exampleManifest.devDependencies =
          some [("a".toList, "2.0".toList), ("b".toList, "1.0".toList)] →
        analysis.dependencies = [("a".toList, "2.0".toList), ("b".toList, "1.0".toList)]) :=
  ⟨⟨_, rfl⟩,
    analyzeProject_dependencies (fun _ => some exampleManifest) id exampleManifestFiles []
      _ { path := "package.json".toList, content := [], extension := "json".toList }
      exampleManifest rfl rfl rfl
      (fun o ho => by cases ho; decide) (fun o ho => by cases ho; decide)⟩


/-! ## C2, C7: `extractApiInfo` -/

/-- C2 fails on the code: for two candidate files `routes/users.js` and
`api/users.js` that both declare `router.get('/users', ...)`, `extractApiInfo`
throws a TypeError instead of returning a map with the entry `GET /users`: it
iterates the keys of `analysis.structure`, and `file.content` of a key is
`undefined`. -/
theorem extractApiInfo_two_candidates_throw (jsonParse : Str → Option PackageInfo)
    (toLowerCase : Str → Str) :
    extractApiInfoOfFiles jsonParse toLowerCase
      [{ path := "routes/users.js".toList, content := specExample, extension := "js".toList },
       { path := "api/users.js".toList
         content := "router.get('/users', listUsers)".toList, extension := "js".toList }] =
      .error .typeError :=
  rfl

/-- C7 fails on the code: the file `src/routes/users.js` is not a candidate.
`extractApiInfo` tests the top-level names of `analysis.structure`, here `src`,
and returns the empty map although the file declares `router.get('/users')`. -/
theorem extractApiInfo_nested_route_file_ignored (jsonParse : Str → Option PackageInfo)
    (toLowerCase : Str → Str) :
    extractApiInfoOfFiles jsonParse toLowerCase
      [{ path := "src/routes/users.js".toList, content := specExample
         extension := "js".toList }] = .ok [] :=
  rfl

/-- Whatever the analysis, `extractApiInfo` returns no endpoint. -/
theorem extractApiInfo_ok_nil (analysis : Analysis) (apiDocs : Obj Endpoint)
    (h : extractApiInfo analysis = .ok apiDocs) : apiDocs = [] := by
  unfold extractApiInfo at h
  cases hk : (Obj.keys analysis.structure_).filter isRouteKey with
  | nil =>
    rw [hk] at h
    simp only [scanRouteFiles, Except.ok.injEq] at h
    exact h.symm
  | cons file files =>
    rw [hk] at h
    simp [scanRouteFiles, routeFileContent] at h

/-! ## C3, C8, C10: comment blocks -/

set_option maxRecDepth 100000 in
/-- C3 fails on the code: on the comment block of the specification's example
the text of `@description` and of `@param` does not end at the next tag, because
the lookahead `\n\s*@` does not allow the ` * ` that starts the next line. Only
`@returns`, the last tag, is extracted as the claim says. -/
theorem extract_fields_of_specExample :
    extractCommentBlock specExample 108 =
      ("/** @description Get all users\n * @param {number} limit - max results\n" ++
       " * @returns {Array} list of users\n */\n").toList ∧
    extractDescription (extractCommentBlock specExample 108) =
      ("Get all users\n * @param {number} limit - max results\n" ++
       " * @returns {Array} list of users").toList ∧
    extractParameters (extractCommentBlock specExample 108) =
      [{ type := "number".toList, name := "limit".toList
         description := "max results\n * @returns {Array} list of users".toList }] ∧
    extractReturns (extractCommentBlock specExample 108) =
      { type := "Array".toList, description := "list of users".toList } := by
  decide

set_option maxRecDepth 100000 in
/-- C8 fails on the code: for the second declaration of a file with two
documented declarations, the text before it ends with the comment
`/** @description List items */`, but `extractCommentBlock` returns everything
from the first `/**` of the file on, the earlier comment and the code after it
included. -/
theorem extractCommentBlock_spans_earlier_comment :
    indexOf "router.get('/items'".toList twoDocumentedRoutes = some 95 ∧
    extractCommentBlock twoDocumentedRoutes 95 =
      ("/** @description List users */\nrouter.get('/users', listUsers);\n" ++
       "/** @description List items */\n").toList := by
  decide

set_option maxRecDepth 100000 in
/-- C10 fails on the code: the text before the second declaration ends with the
plain comment `/* TODO: pagination */`, not with a documentation comment, yet
`extractCommentBlock` returns a non-empty block that starts at the documentation
comment of the first declaration, and the description is taken from it. On the
empty block the three extractors do return their defaults. -/
theorem extractCommentBlock_after_plain_comment :
    indexOf "router.get('/items'".toList plainCommentRoute = some 87 ∧
    extractCommentBlock plainCommentRoute 87 =
      ("/** @description List users */\nrouter.get('/users', listUsers);\n" ++
       "/* TODO: pagination */\n").toList ∧
    extractDescription (extractCommentBlock plainCommentRoute 87) =
      ("List users */\nrouter.get('/users', listUsers);\n" ++
       "/* TODO: pagination */").toList ∧
    extractDescription [] = "No description available".toList ∧
    extractParameters [] = [] ∧
    extractReturns [] = { type := "void".toList, description := "No return value".toList } := by
  decide

/-! ## C9: grouping by base path -/

theorem addToGroup_spec (groups : Obj Group) (entry : Str × Endpoint)
    (hsound : GroupsSound groups)
    (hkey : basePathOf entry.2.path ∉ objectPrototypeKeys) :
    ∃ groups1, addToGroup groups entry = .ok groups1 ∧ GroupsSound groups1 ∧
      (∃ endpoints, Obj.get groups1 (basePathOf entry.2.path) = some endpoints ∧
        entry ∈ endpoints) ∧
      (∀ label endpoints, Obj.get groups label = some endpoints →
        ∃ endpoints1, Obj.get groups1 label = some endpoints1 ∧
          ∀ e ∈ endpoints, e ∈ endpoints1) := by
  have hcontains : objectPrototypeKeys.contains (basePathOf entry.2.path) = false := by
    simpa using hkey
  have hproto : basePathOf entry.2.path ≠ protoKey := by
    intro h
    apply hkey
    rw [h]
    decide
  unfold addToGroup
  cases hget : Obj.get groups (basePathOf entry.2.path) with
  | some endpoints =>
    simp only [Obj.hasTruthy, hget, Option.isSome_some, Bool.true_or, if_true]
    refine ⟨_, rfl, ?_, ?_, ?_⟩
    · intro label es hes e he
      rw [Obj.get_define] at hes
      by_cases hl : basePathOf entry.2.path = label
      · simp only [hl, if_true, Option.some.injEq] at hes
        subst hes
        simp only [List.mem_append, List.mem_singleton] at he
        rcases he with he | he
        · exact hsound label endpoints (hl ▸ hget) e he
        · rw [he]; exact hl
      · simp only [hl, if_false] at hes
        exact hsound label es hes e he
    · exact ⟨endpoints ++ [entry], by simp [Obj.get_define], by simp⟩
    · intro label es hes
      by_cases hl : basePathOf entry.2.path = label
      · refine ⟨endpoints ++ [entry], by simp [Obj.get_define, hl], ?_⟩
        intro e he
        rw [← hl, hget] at hes
        cases hes
        simp [he]
      · exact ⟨es, by simp [Obj.get_define, hl, hes], fun e he => he⟩
  | none =>
    have hassign : Obj.assign groups (basePathOf entry.2.path) ([] : Group) =
        Obj.define groups (basePathOf entry.2.path) [] := by
      unfold Obj.assign
      rw [if_neg (fun hh => hproto hh.1)]
    simp only [Obj.hasTruthy, hget, Option.isSome_none, Bool.false_or, hcontains,
      Bool.false_eq_true, if_false, hassign, Obj.get_define, if_true]
    refine ⟨_, rfl, ?_, ?_, ?_⟩
    · intro label es hes e he
      rw [Obj.get_define] at hes
      by_cases hl : basePathOf entry.2.path = label
      · simp only [hl, if_true, Option.some.injEq] at hes
        subst hes
        simp only [List.nil_append, List.mem_singleton] at he
        rw [he]; exact hl
      · simp only [hl, if_false, Obj.get_define] at hes
        exact hsound label es hes e he
    · exact ⟨[] ++ [entry], by rw [Obj.get_define, if_pos rfl], by simp⟩
    · intro label es hes
      have hl : basePathOf entry.2.path ≠ label := by
        intro hl
        rw [hl] at hget
        rw [hget] at hes
        cases hes
      exact ⟨es, by simp [Obj.get_define, hl, hes], fun e he => he⟩

theorem groupEndpoints_spec (entries : List (Str × Endpoint)) (groups : Obj Group)
    (hsound : GroupsSound groups)
    (hkeys : ∀ e ∈ entries, basePathOf e.2.path ∉ objectPrototypeKeys) :
    ∃ groups1, groupEndpoints entries groups = .ok groups1 ∧ GroupsSound groups1 ∧
      (∀ e ∈ entries, ∃ endpoints,
        Obj.get groups1 (basePathOf e.2.path) = some endpoints ∧ e ∈ endpoints) ∧
      (∀ label endpoints, Obj.get groups label = some endpoints →
        ∃ endpoints1, Obj.get groups1 label = some endpoints1 ∧
          ∀ e ∈ endpoints, e ∈ endpoints1) := by
  induction entries generalizing groups with
  | nil =>
    exact ⟨groups, rfl, hsound, fun e he => absurd he (List.not_mem_nil e),
      fun label es hes => ⟨es, hes, fun e he => he⟩⟩
  | cons entry entries ih =>
    obtain ⟨g1, hg1, hs1, ⟨es0, hes0, hmem0⟩, hmono1⟩ :=
      addToGroup_spec groups entry hsound (hkeys entry (by simp))
    obtain ⟨g2, hg2, hs2, hall2, hmono2⟩ :=
      ih g1 hs1 (fun e he => hkeys e (List.mem_cons_of_mem _ he))
    refine ⟨g2, by simp only [groupEndpoints, hg1, hg2], hs2, ?_, ?_⟩
    · intro e he
      rcases List.mem_cons.mp he with rfl | he
      · obtain ⟨es2, hes2, hsub⟩ := hmono2 _ es0 hes0
        exact ⟨es2, hes2, hsub _ hmem0⟩
      · exact hall2 e he
    · intro label es hes
      obtain ⟨es1, hes1, hsub1⟩ := hmono1 label es hes
      obtain ⟨es2, hes2, hsub2⟩ := hmono2 label es1 hes1
      exact ⟨es2, hes2, fun e he => hsub2 e (hsub1 e he)⟩

/-- C9, as amended: when no label is the name of a property inherited from
`Object.prototype`, the grouping loop of `formatApiDocs` succeeds and puts every
endpoint in the group labelled by the second element of `path.split('/')`, or by
`root` when that element is missing or empty, and in no other group's label; for
a path `/segment` or `/segment/...` with a non-empty segment the label is the
segment, `/auth/login` groups under `auth`, and `/` and the empty path under
`root`. -/
theorem formatApiDocs_groups_by_basePath (apiDocs : Obj Endpoint)
    (hkeys : ∀ e ∈ Obj.entries apiDocs, basePathOf e.2.path ∉ objectPrototypeKeys) :
    (∃ groups, groupEndpoints (Obj.entries apiDocs) [] = .ok groups ∧
      (∀ e ∈ Obj.entries apiDocs, ∃ endpoints,
        Obj.get groups (basePathOf e.2.path) = some endpoints ∧ e ∈ endpoints) ∧
      (∀ label endpoints, Obj.get groups label = some endpoints →
        ∀ e ∈ endpoints, basePathOf e.2.path = label)) ∧
    (∀ segment rest : Str, segment ≠ [] → '/' ∉ segment →
      basePathOf ('/' :: segment) = segment ∧
      basePathOf ('/' :: segment ++ '/' :: rest) = segment) ∧
    basePathOf "/auth/login".toList = "auth".toList ∧
    basePathOf "/".toList = "root".toList ∧
    basePathOf [] = "root".toList := by
  refine ⟨?_, ?_, by decide, by decide, by decide⟩
  · obtain ⟨groups, hrun, hsound, hall, _⟩ :=
      groupEndpoints_spec (Obj.entries apiDocs) []
        (fun label es hes => by simp [Obj.get] at hes) hkeys
    exact ⟨groups, hrun, hall, hsound⟩
  · intro segment rest hne hslash
    have hsplit1 : splitBy (· == '/') segment = [segment] := by
      clear hne
      induction segment with
      | nil => rfl
      | cons c cs ih =>
        simp only [List.mem_cons, not_or] at hslash
        have hc : (c == '/') = false := by
          simpa using fun h => hslash.1 h.symm
        simp [splitBy, hc, ih hslash.2]
    have hsplit2 : ∃ pieces, splitBy (· == '/') (segment ++ '/' :: rest) = segment :: pieces := by
      clear hne hsplit1
      induction segment with
      | nil => exact ⟨splitBy (· == '/') rest, by simp [splitBy]⟩
      | cons c cs ih =>
        simp only [List.mem_cons, not_or] at hslash
        have hc : (c == '/') = false := by
          simpa using fun h => hslash.1 h.symm
        obtain ⟨pieces, hp⟩ := ih hslash.2
        exact ⟨pieces, by simp [splitBy, hc, hp]⟩
    obtain ⟨pieces, hp⟩ := hsplit2
    have hslashCons : ∀ s : Str,
        splitBy (· == '/') ('/' :: s) = [] :: splitBy (· == '/') s := by
      intro s; simp [splitBy]
    have hempty : segment.isEmpty = false := by
      cases segment with
      | nil => exact absurd rfl hne
      | cons c cs => rfl
    constructor
    · rw [basePathOf, hslashCons, hsplit1]
      simp [hempty]
    · rw [basePathOf, List.cons_append, hslashCons, hp]
      simp [hempty]

theorem formatApiDocs_groups_by_basePath_witness :
    (∀ e ∈ Obj.entries exampleApiDocs, basePathOf e.2.path ∉ objectPrototypeKeys) ∧
    ∃ groups, groupEndpoints (Obj.entries exampleApiDocs) [] = .ok groups ∧
      (∀ e ∈ Obj.entries exampleApiDocs, ∃ endpoints,
        Obj.get groups (basePathOf e.2.path) = some endpoints ∧ e ∈ endpoints) ∧
      (∀ label endpoints, Obj.get groups label = some endpoints →
        ∀ e ∈ endpoints, basePathOf e.2.path = label) :=
  ⟨by decide, (formatApiDocs_groups_by_basePath exampleApiDocs (by decide)).1⟩

/-- C9 fails as stated: for the path `//auth/login` the first non-empty segment
after the leading `/` is `auth`, but `formatApiDocs` groups the endpoint under
`root`, because the second element of `path.split('/')` is empty. -/
theorem formatApiDocs_groups_double_slash_under_root :
    specGroupLabel "//auth/login".toList = "auth".toList ∧
    groupEndpoints
      (Obj.entries [("GET //auth/login".toList,
        plainEndpoint "GET".toList "//auth/login".toList)]) [] =
      .ok [("root".toList,
        [("GET //auth/login".toList, plainEndpoint "GET".toList "//auth/login".toList)])] :=
  ⟨by decide, rfl⟩

/-! ## C12: the comment block of a repeated declaration -/

set_option maxRecDepth 100000 in
/-- C12 fails on the code: when `router.get('/a'` occurs twice in one file, the
scan looks the second match up with `content.indexOf(routeMatch)`, which is the
offset of the first occurrence. With a comment before each occurrence the stored
entry holds the description `First` of the first comment; with a comment before
the second occurrence only (offset 56, where the comment block is the one with
`Second`) the stored entry holds the defaults of the undocumented first
occurrence (offset 0). -/
theorem scanContent_repeated_declaration_uses_first_offset :
    (Regex.matchAll routeRegex repeatedRoute).map (fun m => m.index) = [30, 86] ∧
    indexOf "router.get('/a'".toList repeatedRoute = some 30 ∧
    scanContent repeatedRoute [] =
      [("GET /a".toList,
        { method := "GET".toList, path := "/a".toList, description := "First".toList
          parameters := []
          returns := { type := "void".toList, description := "No return value".toList } })] ∧
    (Regex.matchAll routeRegex repeatedRouteSecondDocumented).map (fun m => m.index) =
      [0, 56] ∧
    indexOf "router.get('/a'".toList repeatedRouteSecondDocumented = some 0 ∧
    extractDescription (extractCommentBlock repeatedRouteSecondDocumented 56) =
      "Second".toList ∧
    scanContent repeatedRouteSecondDocumented [] =
      [("GET /a".toList, plainEndpoint "GET".toList "/a".toList)] := by
  decide

/-! ## C11: the parameter table of an endpoint -/

theorem Obj.mem_of_get {α : Type} (o : Obj α) (key : Str) (v : α)
    (h : Obj.get o key = some v) : (key, v) ∈ o := by
  induction o with
  | nil => simp [Obj.get] at h
  | cons e o ih =>
    obtain ⟨k2, v2⟩ := e
    simp only [Obj.get] at h
    by_cases hk : k2 = key
    · simp only [hk, if_true, Option.some.injEq] at h
      simp [hk, h]
    · simp only [hk, if_false] at h
      exact List.mem_cons_of_mem _ (ih h)

theorem flatten_map_of_mem {α : Type} (f : α → Str) (l : List α) (x : α) (hx : x ∈ l) :
    ∃ before after, (l.map f).flatten = before ++ f x ++ after := by
  induction l with
  | nil => exact absurd hx (List.not_mem_nil x)
  | cons y ys ih =>
    rcases List.mem_cons.mp hx with rfl | hmem
    · exact ⟨[], (ys.map f).flatten, by simp⟩
    · obtain ⟨before, after, h⟩ := ih hmem
      exact ⟨f y ++ before, after, by simp [h]⟩

theorem addToGroup_ok_key (groups groups1 : Obj Group) (entry : Str × Endpoint)
    (h : addToGroup groups entry = .ok groups1)
    (hown : ∀ k, (Obj.get groups k).isSome = true → k ∉ objectPrototypeKeys) :
    basePathOf entry.2.path ∉ objectPrototypeKeys ∧
      ∀ k, (Obj.get groups1 k).isSome = true → k ∉ objectPrototypeKeys := by
  unfold addToGroup at h
  cases hget : Obj.get groups (basePathOf entry.2.path) with
  | some endpoints =>
    have hbp : basePathOf entry.2.path ∉ objectPrototypeKeys :=
      hown _ (by rw [hget]; rfl)
    simp only [Obj.hasTruthy, hget, Option.isSome_some, Bool.true_or, if_true,
      Except.ok.injEq] at h
    refine ⟨hbp, ?_⟩
    intro k hk
    rw [← h, Obj.get_define] at hk
    by_cases hl : basePathOf entry.2.path = k
    · exact hl ▸ hbp
    · simp only [hl, if_false] at hk
      exact hown k hk
  | none =>
    by_cases hc : objectPrototypeKeys.contains (basePathOf entry.2.path) = true
    · simp only [Obj.hasTruthy, hget, Option.isSome_none, Bool.false_or, hc, if_true] at h
      cases h
    · have hbp : basePathOf entry.2.path ∉ objectPrototypeKeys := by
        simpa using hc
      have hproto : basePathOf entry.2.path ≠ protoKey := by
        intro hp
        apply hbp
        rw [hp]
        decide
      have hassign : Obj.assign groups (basePathOf entry.2.path) ([] : Group) =
          Obj.define groups (basePathOf entry.2.path) [] := by
        unfold Obj.assign
        rw [if_neg (fun hh => hproto hh.1)]
      simp only [Obj.hasTruthy, hget, Option.isSome_none, Bool.false_or, hc,
        Bool.false_eq_true, if_false, hassign, Obj.get_define, if_true,
        Except.ok.injEq] at h
      refine ⟨hbp, ?_⟩
      intro k hk
      rw [← h, Obj.get_define] at hk
      by_cases hl : basePathOf entry.2.path = k
      · exact hl ▸ hbp
      · simp only [hl, if_false, Obj.get_define] at hk
        exact hown k hk

theorem groupEndpoints_ok_keys (entries : List (Str × Endpoint)) (groups groups1 : Obj Group)
    (h : groupEndpoints entries groups = .ok groups1)
    (hown : ∀ k, (Obj.get groups k).isSome = true → k ∉ objectPrototypeKeys) :
    ∀ e ∈ entries, basePathOf e.2.path ∉ objectPrototypeKeys := by
  induction entries generalizing groups with
  | nil => intro e he; exact absurd he (List.not_mem_nil e)
  | cons entry entries ih =>
    simp only [groupEndpoints] at h
    cases hadd : addToGroup groups entry with
    | error err => rw [hadd] at h; cases h
    | ok g1 =>
      rw [hadd] at h
      obtain ⟨hbp, hown1⟩ := addToGroup_ok_key groups g1 entry hadd hown
      intro e he
      rcases List.mem_cons.mp he with rfl | hmem
      · exact hbp
      · exact ih g1 h hown1 e hmem

theorem startsWith_append_self (p s : Str) : startsWith (p ++ s) p = true := by
  induction p with
  | nil => simp [startsWith]
  | cons c p ih => simp [startsWith, ih]

theorem renderParameterRows_eq (params : List Parameter) :
    renderParameterRows params =
      (params.map fun q => parameterRow q ++ "\n".toList).flatten := by
  unfold renderParameterRows
  congr 1
  apply List.map_congr_left
  intro q _
  simp [parameterRow]

theorem renderEndpoint_eq (endpoint : Str) (info : Endpoint) :
    ∃ tail, renderEndpoint endpoint info =
      endpointHead endpoint info ++ parameterTable info.parameters ++ returnsLine info ++
        "\n\n".toList ++ tail := by
  refine ⟨"**Example Request:**\n\n".toList ++ "```javascript\n".toList ++
     "// Example ".toList ++ info.method ++ " request to ".toList ++ info.path ++
     "\n".toList ++ "```\n\n".toList ++
     "**Example Response:**\n\n".toList ++ "```json\n".toList ++
     "// Example response\n".toList ++ "```\n\n".toList ++ "---\n\n".toList, ?_⟩
  unfold renderEndpoint
  rw [renderParameterRows_eq]
  cases hp : info.parameters with
  | nil =>
    simp only [endpointHead, parameterTable, returnsLine, List.length_nil, gt_iff_lt,
      lt_self_iff_false, if_false, List.append_nil, List.append_assoc]
  | cons q qs =>
    simp only [endpointHead, parameterTable, parameterTableHeader, returnsLine,
      List.length_cons, gt_iff_lt, Nat.zero_lt_succ, if_true, List.append_assoc]

theorem parameterTable_starts_iff (info : Endpoint) :
    startsWith (parameterTable info.parameters ++ returnsLine info) parameterTableHeader = true ↔
      info.parameters ≠ [] := by
  cases hp : info.parameters with
  | nil =>
    have h1 : parameterTableHeader =
        '*' :: '*' :: 'P' :: (parameterTableHeader.drop 3) := by decide
    have h2 : "**Returns:** ".toList =
        '*' :: '*' :: 'R' :: ("**Returns:** ".toList).drop 3 := by decide
    rw [h1]
    simp only [parameterTable, returnsLine, List.nil_append, h2, List.cons_append, startsWith]
    simp
  | cons q qs =>
    simp only [parameterTable, List.append_assoc, startsWith_append_self, ne_eq,
      reduceCtorEq, not_false_eq_true]

/-- C11: in the markdown `formatApiDocs` returns, the text of every endpoint of
the map occurs, and it is the heading and description line, then the parameter
table, then the line `**Returns:** type - description`. The table is empty for
an empty parameter list and otherwise the header `| Name | Type | Description |`
with one row `| name | type | description |` per parameter in list order; what
follows the description line begins with the table header if and only if the
parameter list is non-empty. -/
theorem formatApiDocs_parameter_table (upper : Str → Str) (apiDocs : Obj Endpoint)
    (md : Str) (hrun : formatApiDocs upper apiDocs = .ok md) :
    ∀ e ∈ Obj.entries apiDocs,
      (∃ before after, md = before ++ renderEndpoint e.1 e.2 ++ after) ∧
      (∃ tail, renderEndpoint e.1 e.2 =
        endpointHead e.1 e.2 ++ parameterTable e.2.parameters ++ returnsLine e.2 ++
          "\n\n".toList ++ tail) ∧
      (startsWith (parameterTable e.2.parameters ++ returnsLine e.2)
          parameterTableHeader = true ↔ e.2.parameters ≠ []) := by
  intro e he
  refine ⟨?_, renderEndpoint_eq e.1 e.2, parameterTable_starts_iff e.2⟩
  unfold formatApiDocs at hrun
  cases hg : groupEndpoints (Obj.entries apiDocs) [] with
  | error err => rw [hg] at hrun; cases hrun
  | ok groups =>
    rw [hg] at hrun
    simp only [Except.ok.injEq] at hrun
    have hkeys := groupEndpoints_ok_keys (Obj.entries apiDocs) [] groups hg
      (fun k hk => by simp [Obj.get] at hk)
    obtain ⟨groups1, hrun1, _, hall, _⟩ :=
      groupEndpoints_spec (Obj.entries apiDocs) []
        (fun label es hes => by simp [Obj.get] at hes) hkeys
    rw [hg] at hrun1
    cases hrun1
    obtain ⟨endpoints, hget, hmem⟩ := hall e he
    have hin : (basePathOf e.2.path, endpoints) ∈ Obj.entries groups :=
      (Obj.entries_perm groups).mem_iff.mpr (Obj.mem_of_get groups _ _ hget)
    obtain ⟨b1, a1, h1⟩ :=
      flatten_map_of_mem (fun g : Str × Group => renderGroup upper g.1 g.2) _ _ hin
    obtain ⟨b2, a2, h2⟩ :=
      flatten_map_of_mem (fun x : Str × Endpoint => renderEndpoint x.1 x.2) _ _ hmem
    refine ⟨"# API Documentation\n\n".toList ++ b1 ++
      ("## ".toList ++ upper (basePathOf e.2.path) ++ " Endpoints\n\n".toList) ++ b2,
      a2 ++ a1, ?_⟩
    rw [← hrun, h1]
    simp only [renderGroup]
    rw [h2]
    simp only [List.append_assoc]

theorem formatApiDocs_parameter_table_witness :
    ∃ md, formatApiDocs toUpperCase exampleDocumentedApiDocs = .ok md ∧
      ∀ e ∈ Obj.entries exampleDocumentedApiDocs,
        (∃ before after, md = before ++ renderEndpoint e.1 e.2 ++ after) ∧
        (∃ tail, renderEndpoint e.1 e.2 =
          endpointHead e.1 e.2 ++ parameterTable e.2.parameters ++ returnsLine e.2 ++
            "\n\n".toList ++ tail) ∧
        (startsWith (parameterTable e.2.parameters ++ returnsLine e.2)
            parameterTableHeader = true ↔ e.2.parameters ≠ []) :=
  ⟨_, rfl, formatApiDocs_parameter_table toUpperCase exampleDocumentedApiDocs _ rfl⟩

end Docswriter
